import Mathlib

/-! Verification of the VoteKit election-engine specification.

The repository snapshot at hand contains the project documentation (the
social-choice vocabulary pages and the tutorial notebooks) but not the
Python implementation of the engine itself, so the data model, the quota
functions, the scoring utilities and the round-by-round state machine are
modelled from the specification; each such definition carries a doc
comment starting with `Modelled from the spec:` naming what is missing.
All weights are exact rationals, as the spec requires. -/

namespace VoteKit

/-- Candidate identifiers are strings (the tutorials use names such as A, B, C). -/
abbrev Cand := String

/-- Concrete candidate name used in worked examples. -/
def cA : Cand := "A"

/-- Concrete candidate name used in worked examples. -/
def cB : Cand := "B"

/-- Concrete candidate name used in worked examples. -/
def cC : Cand := "C"

/-- Concrete candidate name used in worked examples. -/
def cD : Cand := "D"

/-- Modelled from the spec: the `Ballot` record (the Python class is not in
the sources).  A ballot stores an optional ranking — a sequence of tied
positions, each a set of candidates (the Python tuple of frozensets is a
`List (Finset Cand)`) — an optional score assignment, and an exact
rational weight.  Being a plain value of this structure, a ballot is
immutable after construction, matching the frozen dataclass of the spec. -/
structure Ballot where
  ranking : Option (List (Finset Cand))
  scores : Option (List (Cand × ℚ))
  weight : ℚ
deriving DecidableEq

/-- Modelled from the spec: the construction API for `Ballot`.  The caller
passes each ranked position as a raw list of candidate identifiers; the
constructor converts every position to a set (the Python frozenset), which
is exactly where duplicate identifiers inside one position are removed.
No ranking is ever derived from the scores. -/
def mkBallot (ranking : Option (List (List Cand))) (scores : Option (List (Cand × ℚ)))
    (weight : ℚ) : Ballot :=
  { ranking := ranking.map (fun r => r.map (fun pos => pos.toFinset)),
    scores := scores,
    weight := weight }

/-- Total weight of a list of ballots. -/
def sumW (bs : List Ballot) : ℚ := (bs.map Ballot.weight).sum

@[simp] lemma sumW_nil : sumW [] = 0 := rfl

@[simp] lemma sumW_cons (b : Ballot) (bs : List Ballot) :
    sumW (b :: bs) = b.weight + sumW bs := by
  simp [sumW]

@[simp] lemma sumW_append (l₁ l₂ : List Ballot) :
    sumW (l₁ ++ l₂) = sumW l₁ + sumW l₂ := by
  simp [sumW]

/-- Modelled from the spec: the Droop quota, `total_weight / (m + 1) + 1`,
as a pure function of the total weight and the number of seats. -/
def droop (total : ℚ) (m : ℕ) : ℚ := total / (m + 1) + 1

/-- Modelled from the spec: the Hare quota, `total_weight / m` (the spec's
primary formula; its design notes record an unresolved `N/m + 1` variant in
the documentation, which is the formula the vocabulary page in the sources
states under its Hare heading). -/
def hare (total : ℚ) (m : ℕ) : ℚ := total / m

section QuotaClaims

/-- C3: The Droop quota is the pure function `total_weight / (m + 1) + 1`
of the total weight and the number of seats, and at total weight 100 with
3 seats it evaluates to 26. -/
theorem droop_formula_and_value :
    (∀ (total : ℚ) (m : ℕ), droop total m = total / (m + 1) + 1) ∧
    droop 100 3 = 26 := by
  constructor
  · intro total m
    rfl
  · norm_num [droop]

/-- C2 counterexample: with the Hare quota as the pure function
`total_weight / m`, its value at total weight 100 and 3 seats is 100/3,
not the 25 the claim states (25 would be `100 / (m + 1)`). -/
theorem hare_at_100_3_ne_25 : hare 100 3 ≠ 25 := by
  norm_num [hare]

/-- C2 (amended): The Hare quota is the pure function `total_weight / m`,
and evaluated at total weight 100 and 3 seats it equals 100/3. -/
theorem hare_formula_and_value :
    (∀ (total : ℚ) (m : ℕ), hare total m = total / m) ∧
    hare 100 3 = 100 / 3 := by
  constructor
  · intro total m
    rfl
  · rfl

end QuotaClaims

section BallotConstructionClaims

/-- C9: A ballot is an immutable value — in this model every `Ballot` is a
plain immutable record, matching the frozen Python dataclass whose field
assignment raises `FrozenInstanceError` — and construction deduplicates
the candidates inside each ranked position: the stored position holds
exactly the candidates of the raw input position, and its size is the
number of distinct entries of the raw position, so every stored tied
position contains distinct candidates. -/
theorem ballot_construction_dedup (raw : List (List Cand))
    (sc : Option (List (Cand × ℚ))) (w : ℚ) (i : ℕ) (hi : i < raw.length) :
    ∃ (r : List Cand) (s : Finset Cand),
      raw.get? i = some r ∧
      ((mkBallot (some raw) sc w).ranking.getD []).get? i = some s ∧
      (∀ c, c ∈ s ↔ c ∈ r) ∧
      s.card = r.dedup.length := by
  obtain ⟨r, hr⟩ : ∃ r, raw.get? i = some r := by
    exact ⟨raw.get ⟨i, hi⟩, List.get?_eq_get hi⟩
  refine ⟨r, r.toFinset, hr, ?_, ?_, ?_⟩
  · rw [List.get?_eq_getElem?] at hr ⊢
    simp [mkBallot, List.getElem?_map, hr]
  · intro c
    simp
  · exact List.card_toFinset r

/-- C9 witness: construction at the tutorial's overvote ballot, position 1
(the raw position lists B three times; the stored position has one entry). -/
theorem ballot_construction_dedup_witness :
    ∃ (r : List Cand) (s : Finset Cand),
      [[cA, cD], [cB, cB, cB]].get? 1 = some r ∧
      ((mkBallot (some [[cA, cD], [cB, cB, cB]]) none 1).ranking.getD []).get? 1 = some s ∧
      (∀ c, c ∈ s ↔ c ∈ r) ∧
      s.card = r.dedup.length :=
  ballot_construction_dedup [[cA, cD], [cB, cB, cB]] none 1 1 (by decide)

/-- C10: A ballot constructed with a scores mapping and no ranking argument
stores `none` as its ranking: no ranking is derived from the scores at
construction. -/
theorem scores_only_ballot_has_no_ranking (sc : List (Cand × ℚ)) (w : ℚ) :
    (mkBallot none (some sc) w).ranking = none := rfl

end BallotConstructionClaims

/-- Modelled from the spec: the `PreferenceProfile` record (the Python
class is not in the sources) — an ordered sequence of ballots plus the
declared candidate list.  Profiles are immutable values; every
transformation returns a new profile. -/
structure PreferenceProfile where
  ballots : List Ballot
  candidates : List Cand
deriving DecidableEq

/-- The condensation key of a ballot: its `(ranking, scores)` pair. -/
def bkey (b : Ballot) : Option (List (Finset Cand)) × Option (List (Cand × ℚ)) :=
  (b.ranking, b.scores)

/-- The keys of a list of ballots, in order. -/
def keyList (bs : List Ballot) : List (Option (List (Finset Cand)) × Option (List (Cand × ℚ))) :=
  bs.map bkey

@[simp] lemma keyList_nil : keyList [] = [] := rfl

@[simp] lemma keyList_cons (b : Ballot) (bs : List Ballot) :
    keyList (b :: bs) = bkey b :: keyList bs := rfl

@[simp] lemma keyList_append (l₁ l₂ : List Ballot) :
    keyList (l₁ ++ l₂) = keyList l₁ ++ keyList l₂ := by
  simp [keyList]

/-- Insert one ballot into an accumulating condensed list: if a ballot with
the same `(ranking, scores)` key is present its weight is increased,
otherwise the ballot is appended at the end. -/
def addBallot : List Ballot → Ballot → List Ballot
  | [], b => [b]
  | x :: xs, b =>
      if bkey x = bkey b then { x with weight := x.weight + b.weight } :: xs
      else x :: addBallot xs b

/-- Modelled from the spec: `condense_ballots` on the ballot list — group
identical `(ranking, scores)` pairs, summing weight, preserving the order
of first occurrence. -/
def condense (bs : List Ballot) : List Ballot := bs.foldl addBallot []

/-- Modelled from the spec: `PreferenceProfile.condense_ballots`, a pure
operation returning a new profile with the condensed ballot list. -/
def condenseProfile (P : PreferenceProfile) : PreferenceProfile :=
  { ballots := condense P.ballots, candidates := P.candidates }

lemma bkey_reweight (x : Ballot) (w : ℚ) : bkey { x with weight := w } = bkey x := rfl

lemma addBallot_keys (acc : List Ballot) (b : Ballot) :
    keyList (addBallot acc b) =
      if bkey b ∈ keyList acc then keyList acc else keyList acc ++ [bkey b] := by
  induction acc with
  | nil => simp [addBallot]
  | cons x xs ih =>
      by_cases h : bkey x = bkey b
      · simp [addBallot, h]
        exact h
      · have hne : ¬ bkey b = bkey x := fun hc => h hc.symm
        by_cases hm : bkey b ∈ keyList xs
        · simp [addBallot, h, ih, hm, hne]
        · simp [addBallot, h, ih, hm, hne]

lemma addBallot_of_not_mem (acc : List Ballot) (b : Ballot)
    (h : bkey b ∉ keyList acc) : addBallot acc b = acc ++ [b] := by
  induction acc with
  | nil => rfl
  | cons x xs ih =>
      have h1 : ¬ bkey x = bkey b := by
        intro hc
        exact h (by simp [hc])
      have h2 : bkey b ∉ keyList xs := fun hc => h (by simp [hc])
      simp [addBallot, h1, ih h2]

lemma foldl_addBallot_keys_nodup (bs : List Ballot) :
    ∀ acc : List Ballot, (keyList acc).Nodup → (keyList (bs.foldl addBallot acc)).Nodup := by
  induction bs with
  | nil => intro acc h; simpa using h
  | cons b bs ih =>
      intro acc h
      refine ih (addBallot acc b) ?_
      rw [addBallot_keys]
      by_cases hm : bkey b ∈ keyList acc
      · simpa [hm] using h
      · rw [if_neg hm]
        refine List.Nodup.append h (List.nodup_singleton _) ?_
        intro k hk1 hk2
        simp at hk2
        exact hm (hk2 ▸ hk1)

/-- A condensed ballot list has pairwise distinct keys. -/
lemma condense_keys_nodup (bs : List Ballot) : (keyList (condense bs)).Nodup :=
  foldl_addBallot_keys_nodup bs [] List.nodup_nil

lemma foldl_addBallot_of_nodup (bs : List Ballot) :
    ∀ acc : List Ballot, (keyList (acc ++ bs)).Nodup → bs.foldl addBallot acc = acc ++ bs := by
  induction bs with
  | nil => intro acc _; simp
  | cons b bs ih =>
      intro acc h
      have hsplit : keyList (acc ++ b :: bs) = keyList acc ++ (bkey b :: keyList bs) := by
        simp
      rw [hsplit] at h
      have hnb : bkey b ∉ keyList acc := by
        have hdisj := (List.nodup_append.mp h).2.2
        intro hc
        exact hdisj hc (by simp)
      have hstep : addBallot acc b = acc ++ [b] := addBallot_of_not_mem acc b hnb
      have h2 : (keyList ((acc ++ [b]) ++ bs)).Nodup := by
        simpa [List.append_assoc] using h
      calc (b :: bs).foldl addBallot acc
          = bs.foldl addBallot (addBallot acc b) := rfl
        _ = bs.foldl addBallot (acc ++ [b]) := by rw [hstep]
        _ = (acc ++ [b]) ++ bs := ih (acc ++ [b]) h2
        _ = acc ++ b :: bs := by simp

/-- Condensing a list whose keys are already pairwise distinct returns it unchanged. -/
lemma condense_of_keys_nodup (bs : List Ballot) (h : (keyList bs).Nodup) :
    condense bs = bs := by
  have := foldl_addBallot_of_nodup bs [] (by simpa using h)
  simpa [condense] using this

section CondenseClaims

/-- C8: Profile condensation is idempotent — condensing the condensation
of any profile yields a profile equal to the condensation of that profile.
Condensation is a pure function on immutable profile values, so it never
mutates its input: it returns a fresh profile and leaves its argument as
it was. -/
theorem condense_idempotent (P : PreferenceProfile) :
    condenseProfile (condenseProfile P) = condenseProfile P := by
  unfold condenseProfile
  simp [condense_of_keys_nodup (condense P.ballots) (condense_keys_nodup P.ballots)]

end CondenseClaims

/-- Number of candidates listed by a ranking: the sum of the sizes of its
tied positions. -/
def listedCount (ranking : List (Finset Cand)) : ℕ := (ranking.map Finset.card).sum

@[simp] lemma listedCount_nil : listedCount [] = 0 := rfl

@[simp] lemma listedCount_cons (P : Finset Cand) (ps : List (Finset Cand)) :
    listedCount (P :: ps) = P.card + listedCount ps := by
  simp [listedCount]

/-- Sum of `k` consecutive entries of the score vector starting at
position `start` (0-indexed). -/
def sliceSum (vec : List ℚ) (start k : ℕ) : ℚ := ((vec.drop start).take k).sum

/-- Locate the tie-block of a candidate inside a ranking: returns the
0-indexed position of the block's first seat and the size of the block,
where `i` is the number of seats consumed by the positions already
scanned. -/
def findBlock (c : Cand) : List (Finset Cand) → ℕ → Option (ℕ × ℕ)
  | [], _ => none
  | pos :: rest, i => if c ∈ pos then some (i, pos.card) else findBlock c rest (i + pos.card)

/-- Modelled from the spec: the Borda score a single ballot's ranking gives
to a candidate under a positional score vector.  A candidate in a
tie-block spanning `k` consecutive seats receives the average of the `k`
seat scores the block covers (the mean over all completions of the tie);
a candidate not listed receives an even share of the score mass left after
the listed seats. -/
def bordaScore (vec : List ℚ) (ranking : List (Finset Cand)) (cands : Finset Cand)
    (c : Cand) : ℚ :=
  match findBlock c ranking 0 with
  | some ik => sliceSum vec ik.1 ik.2 / (ik.2 : ℚ)
  | none =>
      let unlisted := cands.card - listedCount ranking
      if unlisted = 0 then 0
      else sliceSum vec (listedCount ranking) (vec.length - listedCount ranking) / (unlisted : ℚ)

lemma findBlock_append (c : Cand) (B : Finset Cand) (suf : List (Finset Cand))
    (hc : c ∈ B) :
    ∀ (pre : List (Finset Cand)) (i : ℕ), (∀ P ∈ pre, c ∉ P) →
      findBlock c (pre ++ B :: suf) i = some (i + listedCount pre, B.card) := by
  intro pre
  induction pre with
  | nil =>
      intro i _
      simp [findBlock, hc]
  | cons P ps ih =>
      intro i hpre
      have hP : c ∉ P := hpre P (by simp)
      have hps : ∀ Q ∈ ps, c ∉ Q := fun Q hQ => hpre Q (by simp [hQ])
      simp only [List.cons_append, findBlock, if_neg hP, List.append_eq]
      rw [ih (i + P.card) hps]
      congr 1
      simp
      omega

section BordaClaims

/-- C6: In the Borda scoring of a ballot with score vector `r₁, …, rₙ`,
every candidate of a tie-block receives the average of the seat scores the
block covers — for a block of size `k` whose first seat is the one after
the `pre` positions, the sum of those `k` consecutive scores divided by
`k`, which is the average of the candidate's score over all permutations
of the block.  In particular, on the ballot ranking A and B tied first and
C second, with three candidates and score vector `(3, 2, 1)`, A and B each
receive `(3 + 2) / 2 = 5/2` and C receives `1`. -/
theorem borda_tie_average :
    (∀ (vec : List ℚ) (pre suf : List (Finset Cand)) (B : Finset Cand)
       (cands : Finset Cand) (c : Cand), c ∈ B → (∀ P ∈ pre, c ∉ P) →
         bordaScore vec (pre ++ B :: suf) cands c =
           sliceSum vec (listedCount pre) B.card / (B.card : ℚ)) ∧
    bordaScore [3, 2, 1] [{cA, cB}, {cC}] {cA, cB, cC} cA = 5 / 2 ∧
    bordaScore [3, 2, 1] [{cA, cB}, {cC}] {cA, cB, cC} cB = 5 / 2 ∧
    bordaScore [3, 2, 1] [{cA, cB}, {cC}] {cA, cB, cC} cC = 1 := by
  have hAB : (cA ∈ ({cA, cB} : Finset Cand)) ∧ (cB ∈ ({cA, cB} : Finset Cand)) ∧
      (cC ∉ ({cA, cB} : Finset Cand)) ∧ (cC ∈ ({cC} : Finset Cand)) ∧
      ({cA, cB} : Finset Cand).card = 2 ∧ ({cC} : Finset Cand).card = 1 := by
    refine ⟨by decide, by decide, by decide, by decide, by decide, by decide⟩
  obtain ⟨h1, h2, h3, h4, h5, h6⟩ := hAB
  refine ⟨?_, ?_, ?_, ?_⟩
  case refine_2 =>
    unfold bordaScore
    rw [show findBlock cA [{cA, cB}, {cC}] 0 = some (0, 2) by
      simp [findBlock, h1, h5]]
    norm_num [sliceSum]
  case refine_3 =>
    unfold bordaScore
    rw [show findBlock cB [{cA, cB}, {cC}] 0 = some (0, 2) by
      simp [findBlock, h2, h5]]
    norm_num [sliceSum]
  case refine_4 =>
    unfold bordaScore
    rw [show findBlock cC [{cA, cB}, {cC}] 0 = some (2, 1) by
      simp [findBlock, h3, h4, h5, h6]]
    norm_num [sliceSum]
  intro vec pre suf B cands c hc hpre
  unfold bordaScore
  rw [findBlock_append c B suf hc pre 0 hpre]
  simp

/-- C6 witness: the tie-average law applied at the concrete ballot
`{A,B} > C` with score vector `(3, 2, 1)`. -/
theorem borda_tie_average_witness :
    bordaScore [3, 2, 1] ([] ++ {cA, cB} :: [{cC}]) {cA, cB, cC} cA =
      sliceSum [3, 2, 1] (listedCount []) (Finset.card {cA, cB}) /
        ((Finset.card {cA, cB} : ℕ) : ℚ) :=
  borda_tie_average.1 [3, 2, 1] [] [{cC}] {cA, cB} {cA, cB, cC} cA (by decide) (by simp)

end BordaClaims

/-- First candidate of a ranking that is still in contention: positions are
scanned in order, a position all of whose members have been resolved is
skipped, and the first position holding a remaining candidate credits the
ballot to that candidate (when such a position holds several remaining
candidates — a case the spec leaves open — the one earliest in the
remaining list is credited). -/
def topChoice (rem : List Cand) : List (Finset Cand) → Option Cand
  | [] => none
  | pos :: rest =>
      match rem.filter (fun c => decide (c ∈ pos)) with
      | [] => topChoice rem rest
      | c :: _ => some c

/-- The remaining candidate a ballot is currently credited to, if any. -/
def btop (rem : List Cand) (b : Ballot) : Option Cand :=
  match b.ranking with
  | none => none
  | some r => topChoice rem r

lemma topChoice_mem {rem : List Cand} {r : List (Finset Cand)} {c : Cand}
    (h : topChoice rem r = some c) : c ∈ rem := by
  induction r with
  | nil => simp [topChoice] at h
  | cons pos rest ih =>
      rw [topChoice] at h
      rcases hf : rem.filter (fun c => decide (c ∈ pos)) with _ | ⟨d, ds⟩
      · rw [hf] at h
        exact ih h
      · rw [hf] at h
        have : d ∈ rem.filter (fun c => decide (c ∈ pos)) := by
          rw [hf]; exact List.mem_cons_self d ds
        have hd : d ∈ rem := List.mem_of_mem_filter this
        simp at h
        exact h ▸ hd

lemma btop_mem {rem : List Cand} {b : Ballot} {c : Cand}
    (h : btop rem b = some c) : c ∈ rem := by
  unfold btop at h
  rcases hb : b.ranking with _ | r
  · rw [hb] at h; simp at h
  · rw [hb] at h; exact topChoice_mem h

/-- Fatal engine errors.  `tiebreakRequired` names the tied candidates. -/
inductive Err where
  | tiebreakRequired : List Cand → Err
  | invalidQuota : Err
deriving DecidableEq

/-- Modelled from the spec: the per-round election state — the active
profile as it stands entering the round (weights reflect prior transfers),
the candidates still in contention, the elected and eliminated candidates
each paired with the weight they retain, and the recorded exhausted
weight. -/
structure EState where
  active : List Ballot
  remaining : List Cand
  elected : List (Cand × ℚ)
  eliminated : List (Cand × ℚ)
  exhausted : ℚ
deriving DecidableEq

/-- Weight credited to (retained by) the elected candidates. -/
def electedWt (st : EState) : ℚ := (st.elected.map Prod.snd).sum

/-- Weight credited to (retained by) the eliminated candidates. -/
def elimWt (st : EState) : ℚ := (st.eliminated.map Prod.snd).sum

/-- Tally of a candidate: the weight of the active ballots currently
credited to them. -/
def tally (rem : List Cand) (active : List Ballot) (c : Cand) : ℚ :=
  sumW (active.filter (fun b => decide (btop rem b = some c)))

/-- Weight credited to the remaining candidates: the sum of their tallies. -/
def remWeight (st : EState) : ℚ :=
  (st.remaining.map (tally st.remaining st.active)).sum

/-- Split a ballot pile into the ballots still creditable to a remaining
candidate and the total weight of the ballots with no further preference;
the latter is recorded as exhausted, never silently lost. -/
def sift (rem : List Cand) (bs : List Ballot) : List Ballot × ℚ :=
  (bs.filter (fun b => (btop rem b).isSome),
   sumW (bs.filter (fun b => !(btop rem b).isSome)))

/-- The active ballots currently credited to a candidate. -/
def creditedTo (st : EState) (c : Cand) : List Ballot :=
  st.active.filter (fun b => decide (btop st.remaining b = some c))

/-- The active ballots not credited to a candidate. -/
def othersOf (st : EState) (c : Cand) : List Ballot :=
  st.active.filter (fun b => !(decide (btop st.remaining b = some c)))

/-- Modelled from the spec: an engine configuration — a quota function of
(total weight, seats), a transfer strategy
`transfer source credited surplus remaining = (reweighted ballots, exhausted weight delta)`,
a tie-break rule, and the simultaneous/one-by-one election mode. -/
structure Config where
  quota : ℚ → ℕ → ℚ
  transfer : Cand → List Ballot → ℚ → List Cand → List Ballot × ℚ
  tiebreak : List Cand → List Ballot → Option Cand
  simultaneous : Bool

/-- The spec's transfer contract: a strategy reports the exhausted weight
delta, so the redistributed weight plus the reported delta is exactly the
surplus it was asked to move. -/
def ValidTransfer (tr : Cand → List Ballot → ℚ → List Cand → List Ballot × ℚ) : Prop :=
  ∀ (src : Cand) (bs : List Ballot) (s : ℚ) (rem : List Cand),
    sumW (tr src bs s rem).1 + (tr src bs s rem).2 = s

/-- The spec's tie-break contract: a resolved tie names one of the tied
candidates. -/
def ValidTiebreak (tb : List Cand → List Ballot → Option Cand) : Prop :=
  ∀ (tied : List Cand) (prof : List Ballot) (c : Cand), tb tied prof = some c → c ∈ tied

/-- Ballots and exhausted delta produced by the transfer strategy when a
candidate is elected: the surplus is the tally minus the quota. -/
def movedOf (cfg : Config) (qv : ℚ) (st : EState) (c : Cand) : List Ballot × ℚ :=
  cfg.transfer c (creditedTo st c) (sumW (creditedTo st c) - qv) (st.remaining.erase c)

/-- The sifted active pile after an election transfer. -/
def electPool (cfg : Config) (qv : ℚ) (st : EState) (c : Cand) : List Ballot × ℚ :=
  sift (st.remaining.erase c) (othersOf st c ++ (movedOf cfg qv st c).1)

/-- Elect one candidate: they retain the quota, their surplus is
redistributed by the transfer strategy, they leave the remaining set, and
all weight that cannot move on is recorded as exhausted. -/
def electOne (qv : ℚ) (cfg : Config) (st : EState) (c : Cand) : EState :=
  { active := (electPool cfg qv st c).1,
    remaining := st.remaining.erase c,
    elected := st.elected ++ [(c, qv)],
    eliminated := st.eliminated,
    exhausted := st.exhausted + (movedOf cfg qv st c).2 + (electPool cfg qv st c).2 }

/-- Ballots and exhausted delta produced by the transfer strategy when a
candidate is eliminated: their full tally is moved. -/
def elimMovedOf (cfg : Config) (st : EState) (c : Cand) : List Ballot × ℚ :=
  cfg.transfer c (creditedTo st c) (sumW (creditedTo st c)) (st.remaining.erase c)

/-- The sifted active pile after an elimination transfer. -/
def elimPool (cfg : Config) (st : EState) (c : Cand) : List Ballot × ℚ :=
  sift (st.remaining.erase c) (othersOf st c ++ (elimMovedOf cfg st c).1)

/-- Eliminate one candidate: they retain nothing, their full credited
weight is redistributed by the transfer strategy, and weight that cannot
move on is recorded as exhausted. -/
def eliminateOne (cfg : Config) (st : EState) (c : Cand) : EState :=
  { active := (elimPool cfg st c).1,
    remaining := st.remaining.erase c,
    elected := st.elected,
    eliminated := st.eliminated ++ [(c, 0)],
    exhausted := st.exhausted + (elimMovedOf cfg st c).2 + (elimPool cfg st c).2 }

/-- The sifted active pile after a short-election promotion. -/
def promPool (st : EState) (c : Cand) : List Ballot × ℚ :=
  sift (st.remaining.erase c) (othersOf st c)

/-- Promote one candidate in a short election: they are seated below quota
and retain their full current tally; no transfer occurs. -/
def promoteOne (st : EState) (c : Cand) : EState :=
  { active := (promPool st c).1,
    remaining := st.remaining.erase c,
    elected := st.elected ++ [(c, sumW (creditedTo st c))],
    eliminated := st.eliminated,
    exhausted := st.exhausted + (promPool st c).2 }

/-- The remaining candidates whose tally meets the quota this round. -/
def winnersOf (qv : ℚ) (st : EState) : List Cand :=
  st.remaining.filter (fun c => decide (qv ≤ tally st.remaining st.active c))

/-- The lowest tally among the remaining candidates (0 when none remain). -/
def minTally (st : EState) : ℚ :=
  match st.remaining with
  | [] => 0
  | c :: cs =>
      cs.foldl (fun acc d => min acc (tally st.remaining st.active d))
        (tally st.remaining st.active c)

/-- The remaining candidates tied at the lowest tally. -/
def losersOf (st : EState) : List Cand :=
  st.remaining.filter (fun c => decide (tally st.remaining st.active c = minTally st))

/-- The candidate with the highest tally among `c₀ :: l` (the earliest on a
tie). -/
def bestOf (st : EState) (l : List Cand) (c₀ : Cand) : Cand :=
  l.foldl
    (fun best d =>
      if tally st.remaining st.active best < tally st.remaining st.active d then d else best)
    c₀

/-- Modelled from the spec: one round of the election state machine.
Tally; elect every candidate over quota (all simultaneously by default,
or only the single highest in one-by-one mode), redistributing surpluses;
if nobody crossed quota, eliminate the candidate with the strictly lowest
tally, resolving a tie at the bottom with the configured tie-break rule —
and when that rule is none, abort the round with `tiebreakRequired`
naming the tied candidates rather than guessing. -/
def stepRound (qv : ℚ) (cfg : Config) (st : EState) : Except Err EState :=
  match winnersOf qv st with
  | w :: ws =>
      if cfg.simultaneous then .ok ((w :: ws).foldl (electOne qv cfg) st)
      else .ok (electOne qv cfg st (bestOf st ws w))
  | [] =>
      match losersOf st, cfg.tiebreak (losersOf st) st.active with
      | [c], _ => .ok (eliminateOne cfg st c)
      | _, some c => .ok (eliminateOne cfg st c)
      | _, none => .error (.tiebreakRequired (losersOf st))

/-- Modelled from the spec: when ballots exhaust before all seats are
filled the election completes short, seating up to the missing number of
top-tallied remaining candidates below quota. -/
def fillShort : ℕ → EState → EState
  | 0, st => st
  | k + 1, st =>
      match st.remaining with
      | [] => st
      | c :: cs => fillShort k (promoteOne st (bestOf st cs c))

/-- Outcome of a run: the completed final state, a fatal error aborting
the state machine, or fuel exhaustion (shown below to be unreachable with
fuel `|candidates| + 1`). -/
inductive Outcome where
  | complete : EState → Outcome
  | err : Err → Outcome
  | outOfFuel : Outcome
deriving DecidableEq

/-- Modelled from the spec: the round loop.  Each iteration first checks
termination — all seats filled, or contention/ballots exhausted (then the
short fill applies) — and otherwise executes one round.  It returns the
list of states produced (one per executed round, plus the final state on
completion) and the outcome. -/
def runLoop (qv : ℚ) (m : ℕ) (cfg : Config) : ℕ → EState → List EState × Outcome
  | 0, _ => ([], .outOfFuel)
  | fuel + 1, st =>
      if m ≤ st.elected.length then ([st], .complete st)
      else if st.remaining = [] ∨ st.active = [] then
        let stF := fillShort (m - st.elected.length) st
        ([stF], .complete stF)
      else
        match stepRound qv cfg st with
        | .error e => ([], .err e)
        | .ok st₁ =>
            let r := runLoop qv m cfg fuel st₁
            (st₁ :: r.1, r.2)

/-- Modelled from the spec: the initial election state — every candidate
in contention (duplicates dropped), the ballots that credit someone
active, and the weight of ballots that can never credit anyone recorded
as exhausted from the start. -/
def initState (cands : List Cand) (ballots : List Ballot) : EState :=
  { active := (sift cands.dedup ballots).1,
    remaining := cands.dedup,
    elected := [],
    eliminated := [],
    exhausted := (sift cands.dedup ballots).2 }

/-- Modelled from the spec: a full STV-style election run.  The quota is
computed once from the initial total weight and the seat count; the trace
returned holds the initial state, the state after each executed round,
and the final state on completion. -/
def runSTV (cfg : Config) (m : ℕ) (cands : List Cand) (ballots : List Ballot) :
    List EState × Outcome :=
  (initState cands ballots ::
      (runLoop (cfg.quota (sumW ballots) m) m cfg (cands.length + 1)
        (initState cands ballots)).1,
   (runLoop (cfg.quota (sumW ballots) m) m cfg (cands.length + 1)
       (initState cands ballots)).2)

/-- Number of rounds a run actually executed: the trace holds the initial
state, one state per round, and additionally the final state when the run
completed. -/
def roundsRun (r : List EState × Outcome) : ℕ :=
  match r.2 with
  | .complete _ => r.1.length - 2
  | _ => r.1.length - 1

/-- Modelled from the spec: the fractional transfer strategy's output
pile — every creditable ballot rescaled by surplus over total credited
weight. -/
def fracOut (bs : List Ballot) (s : ℚ) (rem : List Cand) : List Ballot :=
  if sumW bs = 0 then []
  else (bs.filter (fun b => (btop rem b).isSome)).map
    (fun b => { b with weight := b.weight * (s / sumW bs) })

/-- Modelled from the spec: fractional transfer — creditable ballots are
rescaled by `surplus / total credited weight`, and the weight that does
not move on is reported as the exhausted delta. -/
def fracTransfer : Cand → List Ballot → ℚ → List Cand → List Ballot × ℚ :=
  fun _src bs s rem => (fracOut bs s rem, s - sumW (fracOut bs s rem))

/-- Modelled from the spec: the `None` transfer of SequentialRCV-style
rules — nothing moves, the whole surplus is reported exhausted. -/
def noneTransfer : Cand → List Ballot → ℚ → List Cand → List Ballot × ℚ :=
  fun _src _bs s _rem => ([], s)

/-- A linear-congruential step: the explicit, seedable generator the spec
requires instead of ambient random state. -/
def lcgNext (s : ℕ) : ℕ := (1103515245 * s + 12345) % 2147483648

/-- Modelled from the spec: random transfer — about `round(surplus)` whole
ballots, selected by the seeded generator from the creditable pile, move
at full weight; the weight that does not move is reported exhausted. -/
def randTransfer (seed : ℕ) : Cand → List Ballot → ℚ → List Cand → List Ballot × ℚ :=
  fun _src bs s rem =>
    ((((bs.filter (fun b => (btop rem b).isSome)).rotate
          (lcgNext seed % ((bs.filter (fun b => (btop rem b).isSome)).length + 1))).take
        (s + 1 / 2).floor.toNat),
     s - sumW (((bs.filter (fun b => (btop rem b).isSome)).rotate
          (lcgNext seed % ((bs.filter (fun b => (btop rem b).isSome)).length + 1))).take
        (s + 1 / 2).floor.toNat))

/-- Modelled from the spec: random tie-break — a draw from the seeded
generator picks one of the tied candidates. -/
def randTiebreak (seed : ℕ) : List Cand → List Ballot → Option Cand :=
  fun tied _prof =>
    match tied with
    | [] => none
    | t :: ts => some ((t :: ts).getD (lcgNext seed % (ts.length + 1)) t)

/-- Modelled from the spec: the `none` tie-break policy — it never
resolves a tie, forcing the engine to fail. -/
def noneTiebreak : List Cand → List Ballot → Option Cand := fun _tied _prof => none

/-- A deterministic first-in-order tie-break rule, used to exhibit
complete runs. -/
def firstTiebreak : List Cand → List Ballot → Option Cand := fun tied _prof => tied.head?

/-- The default STV configuration with the `none` tie-break policy. -/
def stvNoneConfig : Config :=
  { quota := droop, transfer := fracTransfer, tiebreak := noneTiebreak, simultaneous := true }

/-- An STV configuration resolving ties first-in-order, used in witnesses. -/
def stvFirstConfig : Config :=
  { quota := droop, transfer := fracTransfer, tiebreak := firstTiebreak, simultaneous := true }

/-- The seeded random configuration: random transfer and random tie-break
drawn from the explicit generator. -/
def randomConfig (seed : ℕ) : Config :=
  { quota := droop, transfer := randTransfer seed, tiebreak := randTiebreak seed,
    simultaneous := true }

/-- The fractional strategy satisfies the transfer contract. -/
lemma fracTransfer_valid : ValidTransfer fracTransfer := by
  intro src bs s rem
  simp [fracTransfer]

/-- The none strategy satisfies the transfer contract. -/
lemma noneTransfer_valid : ValidTransfer noneTransfer := by
  intro src bs s rem
  simp [noneTransfer]

/-- The random strategy satisfies the transfer contract. -/
lemma randTransfer_valid (seed : ℕ) : ValidTransfer (randTransfer seed) := by
  intro src bs s rem
  simp [randTransfer]

/-- The first-in-order tie-break satisfies the tie-break contract. -/
lemma firstTiebreak_valid : ValidTiebreak firstTiebreak := by
  intro tied prof c h
  cases tied with
  | nil => simp [firstTiebreak] at h
  | cons t ts =>
      simp [firstTiebreak] at h
      simp [h]

lemma sumW_filter_partition (p : Ballot → Bool) (bs : List Ballot) :
    sumW (bs.filter p) + sumW (bs.filter (fun b => !(p b))) = sumW bs := by
  induction bs with
  | nil => simp
  | cons b bs ih =>
      cases hp : p b with
      | false =>
          simp [List.filter_cons, hp]
          linarith
      | true =>
          simp [List.filter_cons, hp]
          linarith

lemma sift_weight (rem : List Cand) (bs : List Ballot) :
    sumW (sift rem bs).1 + (sift rem bs).2 = sumW bs :=
  sumW_filter_partition (fun b => (btop rem b).isSome) bs

lemma sift_live (rem : List Cand) (bs : List Ballot) :
    ∀ b ∈ (sift rem bs).1, (btop rem b).isSome = true := by
  intro b hb
  exact (List.mem_filter.mp hb).2

lemma credited_partition (st : EState) (c : Cand) :
    sumW (creditedTo st c) + sumW (othersOf st c) = sumW st.active :=
  sumW_filter_partition (fun b => decide (btop st.remaining b = some c)) st.active

/-- The weight-conservation invariant of a state, together with the
structural facts (distinct remaining candidates, every active ballot
creditable) needed to read the active weight as the remaining tallies. -/
def Inv (total : ℚ) (st : EState) : Prop :=
  st.remaining.Nodup ∧
  (∀ b ∈ st.active, (btop st.remaining b).isSome = true) ∧
  sumW st.active + electedWt st + elimWt st + st.exhausted = total

lemma electOne_inv {cfg : Config} (hT : ValidTransfer cfg.transfer) (qv total : ℚ)
    {st : EState} (h : Inv total st) (c : Cand) : Inv total (electOne qv cfg st c) := by
  obtain ⟨hnd, _hlive, hsum⟩ := h
  refine ⟨hnd.erase c, ?_, ?_⟩
  · intro b hb
    exact sift_live _ _ b hb
  · have h1 := credited_partition st c
    have h2 : sumW (movedOf cfg qv st c).1 + (movedOf cfg qv st c).2
        = sumW (creditedTo st c) - qv :=
      hT c (creditedTo st c) (sumW (creditedTo st c) - qv) (st.remaining.erase c)
    have h3 : sumW (electPool cfg qv st c).1 + (electPool cfg qv st c).2
        = sumW (othersOf st c) + sumW (movedOf cfg qv st c).1 := by
      have h4 := sift_weight (st.remaining.erase c) (othersOf st c ++ (movedOf cfg qv st c).1)
      rw [sumW_append] at h4
      exact h4
    simp only [electOne, electedWt, elimWt, List.map_append, List.sum_append,
      List.map_cons, List.map_nil, List.sum_cons, List.sum_nil] at hsum ⊢
    linarith

lemma eliminateOne_inv {cfg : Config} (hT : ValidTransfer cfg.transfer) (total : ℚ)
    {st : EState} (h : Inv total st) (c : Cand) : Inv total (eliminateOne cfg st c) := by
  obtain ⟨hnd, _hlive, hsum⟩ := h
  refine ⟨hnd.erase c, ?_, ?_⟩
  · intro b hb
    exact sift_live _ _ b hb
  · have h1 := credited_partition st c
    have h2 : sumW (elimMovedOf cfg st c).1 + (elimMovedOf cfg st c).2
        = sumW (creditedTo st c) :=
      hT c (creditedTo st c) (sumW (creditedTo st c)) (st.remaining.erase c)
    have h3 : sumW (elimPool cfg st c).1 + (elimPool cfg st c).2
        = sumW (othersOf st c) + sumW (elimMovedOf cfg st c).1 := by
      have h4 := sift_weight (st.remaining.erase c) (othersOf st c ++ (elimMovedOf cfg st c).1)
      rw [sumW_append] at h4
      exact h4
    simp only [eliminateOne, electedWt, elimWt, List.map_append, List.sum_append,
      List.map_cons, List.map_nil, List.sum_cons, List.sum_nil] at hsum ⊢
    linarith

lemma promoteOne_inv (total : ℚ) {st : EState} (h : Inv total st) (c : Cand) :
    Inv total (promoteOne st c) := by
  obtain ⟨hnd, _hlive, hsum⟩ := h
  refine ⟨hnd.erase c, ?_, ?_⟩
  · intro b hb
    exact sift_live _ _ b hb
  · have h1 := credited_partition st c
    have h3 : sumW (promPool st c).1 + (promPool st c).2 = sumW (othersOf st c) :=
      sift_weight (st.remaining.erase c) (othersOf st c)
    simp only [promoteOne, electedWt, elimWt, List.map_append, List.sum_append,
      List.map_cons, List.map_nil, List.sum_cons, List.sum_nil] at hsum ⊢
    linarith

lemma foldl_electOne_inv {cfg : Config} (hT : ValidTransfer cfg.transfer) (qv total : ℚ) :
    ∀ (l : List Cand) (st : EState), Inv total st →
      Inv total (l.foldl (electOne qv cfg) st) := by
  intro l
  induction l with
  | nil => intro st h; exact h
  | cons c cs ih => intro st h; exact ih _ (electOne_inv hT qv total h c)

lemma fillShort_inv (total : ℚ) :
    ∀ (k : ℕ) (st : EState), Inv total st → Inv total (fillShort k st) := by
  intro k
  induction k with
  | zero => intro st h; exact h
  | succ n ih =>
      intro st h
      rw [fillShort]
      rcases hr : st.remaining with _ | ⟨c, cs⟩
      · exact h
      · exact ih _ (promoteOne_inv total h _)

lemma stepRound_inv {cfg : Config} (hT : ValidTransfer cfg.transfer) (qv total : ℚ)
    {st st₁ : EState} (h : Inv total st) (hstep : stepRound qv cfg st = .ok st₁) :
    Inv total st₁ := by
  unfold stepRound at hstep
  split at hstep
  · split at hstep
    · cases hstep
      exact foldl_electOne_inv hT qv total _ st h
    · cases hstep
      exact electOne_inv hT qv total h _
  · split at hstep
    · cases hstep
      exact eliminateOne_inv hT total h _
    · cases hstep
      exact eliminateOne_inv hT total h _
    · cases hstep

lemma runLoop_inv {cfg : Config} (hT : ValidTransfer cfg.transfer) (qv : ℚ) (m : ℕ)
    (total : ℚ) :
    ∀ (fuel : ℕ) (st : EState), Inv total st →
      ∀ s ∈ (runLoop qv m cfg fuel st).1, Inv total s := by
  intro fuel
  induction fuel with
  | zero => intro st _ s hs; simp [runLoop] at hs
  | succ n ih =>
      intro st h s hs
      rw [runLoop] at hs
      by_cases h1 : m ≤ st.elected.length
      · rw [if_pos h1] at hs
        simp at hs
        subst hs
        exact h
      · rw [if_neg h1] at hs
        by_cases h2 : st.remaining = [] ∨ st.active = []
        · rw [if_pos h2] at hs
          simp at hs
          subst hs
          exact fillShort_inv total _ st h
        · rw [if_neg h2] at hs
          cases hstep : stepRound qv cfg st with
          | error e =>
              rw [hstep] at hs
              simp at hs
          | ok st₁ =>
              rw [hstep] at hs
              simp at hs
              rcases hs with hs | hs
              · subst hs
                exact stepRound_inv hT qv total h hstep
              · exact ih st₁ (stepRound_inv hT qv total h hstep) s hs

lemma sum_map_add {α : Type} (l : List α) (f g : α → ℚ) :
    (l.map (fun x => f x + g x)).sum = (l.map f).sum + (l.map g).sum := by
  induction l with
  | nil => simp
  | cons x xs ih =>
      simp [ih]
      ring

lemma sum_ite_not_mem (l : List Cand) (c₀ : Cand) (w : ℚ) (h : c₀ ∉ l) :
    (l.map (fun c => if c₀ = c then w else 0)).sum = 0 := by
  induction l with
  | nil => simp
  | cons d ds ih =>
      have h1 : c₀ ≠ d := fun hc => h (by simp [hc])
      have h2 : c₀ ∉ ds := fun hc => h (by simp [hc])
      simp [h1, ih h2]

lemma sum_ite_mem (l : List Cand) (c₀ : Cand) (w : ℚ) (hnd : l.Nodup) (hm : c₀ ∈ l) :
    (l.map (fun c => if c₀ = c then w else 0)).sum = w := by
  induction l with
  | nil => simp at hm
  | cons d ds ih =>
      rcases List.mem_cons.mp hm with h | h
      · subst h
        have hds : c₀ ∉ ds := (List.nodup_cons.mp hnd).1
        simp [sum_ite_not_mem ds c₀ w hds]
      · have hne : c₀ ≠ d := by
          intro hc
          rw [hc] at h
          exact (List.nodup_cons.mp hnd).1 h
        simp [hne, ih (List.nodup_cons.mp hnd).2 h]

lemma tally_cons (rem : List Cand) (b : Ballot) (bs : List Ballot) (c : Cand) :
    tally rem (b :: bs) c = (if btop rem b = some c then b.weight else 0) + tally rem bs c := by
  unfold tally
  rw [List.filter_cons]
  by_cases h : btop rem b = some c
  · simp [h]
  · simp [h]

/-- With distinct remaining candidates and every active ballot creditable,
the remaining tallies sum to the active weight. -/
lemma tallySum_eq (rem : List Cand) (hnd : rem.Nodup) :
    ∀ active : List Ballot, (∀ b ∈ active, (btop rem b).isSome = true) →
      (rem.map (tally rem active)).sum = sumW active := by
  intro active
  induction active with
  | nil =>
      intro _
      have hfun : tally rem ([] : List Ballot) = fun _ => (0 : ℚ) := by
        funext c
        simp [tally]
      rw [hfun]
      simp
  | cons b bs ih =>
      intro hlive
      have hb : (btop rem b).isSome = true := hlive b (by simp)
      obtain ⟨c₀, hc₀⟩ := Option.isSome_iff_exists.mp hb
      have hmem : c₀ ∈ rem := btop_mem hc₀
      have hfun : tally rem (b :: bs)
          = fun c => (if btop rem b = some c then b.weight else 0) + tally rem bs c := by
        funext c
        exact tally_cons rem b bs c
      rw [hfun, sum_map_add]
      have h1 : (rem.map (fun c => if btop rem b = some c then b.weight else 0)).sum
          = b.weight := by
        have hfe : (fun c => if btop rem b = some c then b.weight else 0)
            = (fun c => if c₀ = c then b.weight else 0) := by
          funext c
          rw [hc₀]
          simp
        rw [hfe, sum_ite_mem rem c₀ b.weight hnd hmem]
      rw [h1, ih (fun x hx => hlive x (by simp [hx]))]
      simp

lemma remWeight_of_inv (total : ℚ) {st : EState} (h : Inv total st) :
    remWeight st = sumW st.active :=
  tallySum_eq st.remaining h.1 st.active h.2.1

section ConservationClaim

/-- C1: For every election run — under every quota function, every
transfer strategy meeting the spec's contract of reporting its exhausted
weight delta, every tie-break rule and either election mode — and for
every round state of that run (initial, entering each round, and final),
the weight credited to the elected candidates plus the weight credited to
the eliminated candidates plus the weight credited to the remaining
candidates plus the recorded exhausted weight equals the total weight of
the initial profile. -/
theorem stv_weight_conservation (cfg : Config) (hT : ValidTransfer cfg.transfer)
    (m : ℕ) (cands : List Cand) (ballots : List Ballot) :
    ∀ st ∈ (runSTV cfg m cands ballots).1,
      electedWt st + elimWt st + remWeight st + st.exhausted = sumW ballots := by
  intro st hst
  have hInit : Inv (sumW ballots) (initState cands ballots) := by
    refine ⟨List.nodup_dedup cands, ?_, ?_⟩
    · intro b hb
      exact sift_live cands.dedup ballots b hb
    · have h3 := sift_weight cands.dedup ballots
      simp only [initState, electedWt, elimWt, List.map_nil, List.sum_nil]
      linarith
  have hstInv : Inv (sumW ballots) st := by
    simp only [runSTV] at hst
    rcases List.mem_cons.mp hst with h | h
    · rw [h]
      exact hInit
    · exact runLoop_inv hT _ m (sumW ballots) _ _ hInit st h
  have hr := remWeight_of_inv (sumW ballots) hstInv
  obtain ⟨_, _, hsum⟩ := hstInv
  linarith

/-- C1 witness: conservation read off at the initial state of a concrete
run of the two-candidate profile under the fractional-transfer
configuration. -/
theorem stv_weight_conservation_witness :
    electedWt (initState [cA, cB] [mkBallot (some [[cA], [cB]]) none 1,
        mkBallot (some [[cA], [cB]]) none 1, mkBallot (some [[cB], [cA]]) none 1,
        mkBallot (some [[cB], [cA]]) none 1])
      + elimWt (initState [cA, cB] [mkBallot (some [[cA], [cB]]) none 1,
          mkBallot (some [[cA], [cB]]) none 1, mkBallot (some [[cB], [cA]]) none 1,
          mkBallot (some [[cB], [cA]]) none 1])
      + remWeight (initState [cA, cB] [mkBallot (some [[cA], [cB]]) none 1,
          mkBallot (some [[cA], [cB]]) none 1, mkBallot (some [[cB], [cA]]) none 1,
          mkBallot (some [[cB], [cA]]) none 1])
      + (initState [cA, cB] [mkBallot (some [[cA], [cB]]) none 1,
          mkBallot (some [[cA], [cB]]) none 1, mkBallot (some [[cB], [cA]]) none 1,
          mkBallot (some [[cB], [cA]]) none 1]).exhausted
      = sumW [mkBallot (some [[cA], [cB]]) none 1, mkBallot (some [[cA], [cB]]) none 1,
          mkBallot (some [[cB], [cA]]) none 1, mkBallot (some [[cB], [cA]]) none 1] :=
  stv_weight_conservation stvFirstConfig fracTransfer_valid 1 [cA, cB]
    [mkBallot (some [[cA], [cB]]) none 1, mkBallot (some [[cA], [cB]]) none 1,
      mkBallot (some [[cB], [cA]]) none 1, mkBallot (some [[cB], [cA]]) none 1]
    (initState [cA, cB] [mkBallot (some [[cA], [cB]]) none 1,
        mkBallot (some [[cA], [cB]]) none 1, mkBallot (some [[cB], [cA]]) none 1,
        mkBallot (some [[cB], [cA]]) none 1])
    (List.mem_cons_self _ _)

end ConservationClaim

/-- The spec's STV scenario profile: four weight-1 ballots, two ranking
A over B and two ranking B over A. -/
def tiedProfile : List Ballot :=
  [mkBallot (some [[cA], [cB]]) none 1, mkBallot (some [[cA], [cB]]) none 1,
    mkBallot (some [[cB], [cA]]) none 1, mkBallot (some [[cB], [cA]]) none 1]

/-- The initial state of the scenario run, written out. -/
def tiedStart : EState :=
  { active := tiedProfile, remaining := [cA, cB], elected := [], eliminated := [],
    exhausted := 0 }

lemma tiedStart_eq : initState [cA, cB] tiedProfile = tiedStart := rfl

lemma tiedProfile_sumW : sumW tiedProfile = 4 := by
  simp [tiedProfile, mkBallot]
  norm_num

lemma tiedStart_tallyA : tally [cA, cB] tiedProfile cA = 2 := by
  have hb1 : btop [cA, cB] (mkBallot (some [[cA], [cB]]) none 1) = some cA := rfl
  have hb2 : btop [cA, cB] (mkBallot (some [[cB], [cA]]) none 1) = some cB := rfl
  have hAB : cA ≠ cB := by decide
  simp [tally, tiedProfile, List.filter, hb1, hb2, hAB, hAB.symm]
  norm_num [mkBallot]

lemma tiedStart_tallyB : tally [cA, cB] tiedProfile cB = 2 := by
  have hb1 : btop [cA, cB] (mkBallot (some [[cA], [cB]]) none 1) = some cA := rfl
  have hb2 : btop [cA, cB] (mkBallot (some [[cB], [cA]]) none 1) = some cB := rfl
  have hAB : cA ≠ cB := by decide
  simp [tally, tiedProfile, List.filter, hb1, hb2, hAB, hAB.symm]
  norm_num [mkBallot]

lemma tiedStart_winners : winnersOf 3 tiedStart = [] := by
  have h32 : ¬ ((3 : ℚ) ≤ 2) := by norm_num
  simp [winnersOf, tiedStart, List.filter, tiedStart_tallyA, tiedStart_tallyB, h32]

lemma tiedStart_losers : losersOf tiedStart = [cA, cB] := by
  have hmin : minTally tiedStart = 2 := by
    simp [minTally, tiedStart, tiedStart_tallyA, tiedStart_tallyB]
  have hr : tiedStart.remaining = [cA, cB] := rfl
  have ha : tiedStart.active = tiedProfile := rfl
  simp only [losersOf, hr, ha, hmin]
  simp [tiedStart_tallyA, tiedStart_tallyB]

/-- Any round whose losers are genuinely tied aborts with the named error
under the `none` tie-break policy. -/
lemma stepRound_tiebreak_none (cfg : Config) (qv : ℚ) (st : EState) (a b : Cand)
    (rest : List Cand) (hcfg : cfg.tiebreak = noneTiebreak)
    (hW : winnersOf qv st = []) (hL : losersOf st = a :: b :: rest) :
    stepRound qv cfg st = .error (.tiebreakRequired (a :: b :: rest)) := by
  unfold stepRound
  rw [hW, hL, hcfg]
  rfl

section TiebreakClaim

/-- C4: Under the `none` tie-break policy the engine never resolves a
rule-required tie by iteration order: whenever no candidate crosses quota
and at least two remaining candidates are tied at the lowest tally, the
round aborts with `tiebreakRequired` naming exactly the tied candidates.
In particular, the four-ballot profile A>B, A>B, B>A, B>A with one seat
under the Droop quota (which is 3) aborts round one with the error naming
A and B. -/
theorem tiebreak_none_fatal :
    (∀ (cfg : Config) (qv : ℚ) (st : EState) (a b : Cand) (rest : List Cand),
        cfg.tiebreak = noneTiebreak →
        winnersOf qv st = [] →
        losersOf st = a :: b :: rest →
        stepRound qv cfg st = .error (.tiebreakRequired (a :: b :: rest))) ∧
    (runSTV stvNoneConfig 1 [cA, cB] tiedProfile).2 = .err (.tiebreakRequired [cA, cB]) := by
  constructor
  · exact stepRound_tiebreak_none
  · have hqv : stvNoneConfig.quota (sumW tiedProfile) 1 = 3 := by
      rw [tiedProfile_sumW]
      show droop 4 1 = 3
      norm_num [droop]
    have hstep : stepRound 3 stvNoneConfig tiedStart
        = .error (.tiebreakRequired [cA, cB]) :=
      stepRound_tiebreak_none stvNoneConfig 3 tiedStart cA cB [] rfl
        tiedStart_winners tiedStart_losers
    rw [runSTV]
    simp only [tiedStart_eq, hqv]
    rw [runLoop]
    have hne : ¬ (1 ≤ tiedStart.elected.length) := by simp [tiedStart]
    rw [if_neg hne]
    have hne2 : ¬ (tiedStart.remaining = [] ∨ tiedStart.active = []) := by
      simp [tiedStart, tiedProfile]
    rw [if_neg hne2]
    rw [hstep]

/-- C4 witness: the abort law applied at the concrete tied round — quota 3,
the scenario's initial state, tied candidates A and B. -/
theorem tiebreak_none_fatal_witness :
    stepRound 3 stvNoneConfig tiedStart = .error (.tiebreakRequired (cA :: cB :: [])) :=
  tiebreak_none_fatal.1 stvNoneConfig 3 tiedStart cA cB [] rfl
    tiedStart_winners tiedStart_losers

end TiebreakClaim

section DeterminismClaim

/-- C5: The engine draws randomness only from the explicit seeded
generator threaded through the configuration, so two election runs using
random tie-break and random transfer with the identical seed and the
identical profile produce identical round-by-round traces — the same
remaining, elected and eliminated sets and the same profile snapshot in
every round, and the same outcome. -/
theorem same_seed_same_trace (s₁ s₂ : ℕ) (m : ℕ) (cands : List Cand)
    (bs₁ bs₂ : List Ballot) (hs : s₁ = s₂) (hb : bs₁ = bs₂) :
    runSTV (randomConfig s₁) m cands bs₁ = runSTV (randomConfig s₂) m cands bs₂ := by
  rw [hs, hb]

/-- C5 witness: two runs of the scenario profile with seed 7 coincide. -/
theorem same_seed_same_trace_witness :
    runSTV (randomConfig 7) 1 [cA, cB] tiedProfile
      = runSTV (randomConfig 7) 1 [cA, cB] tiedProfile :=
  same_seed_same_trace 7 7 1 [cA, cB] tiedProfile tiedProfile rfl rfl

end DeterminismClaim

lemma bestOf_mem (st : EState) :
    ∀ (l : List Cand) (c₀ : Cand), bestOf st l c₀ ∈ c₀ :: l := by
  intro l
  induction l with
  | nil =>
      intro c₀
      simp [bestOf]
  | cons d ds ih =>
      intro c₀
      simp only [bestOf, List.foldl_cons]
      by_cases hc : tally st.remaining st.active c₀ < tally st.remaining st.active d
      · rw [if_pos hc]
        have h := ih d
        simp only [bestOf] at h
        rcases List.mem_cons.mp h with h1 | h1
        · rw [h1]
          simp
        · exact List.mem_cons_of_mem _ (List.mem_cons_of_mem _ h1)
      · rw [if_neg hc]
        have h := ih c₀
        simp only [bestOf] at h
        rcases List.mem_cons.mp h with h1 | h1
        · rw [h1]
          simp
        · exact List.mem_cons_of_mem _ (List.mem_cons_of_mem _ h1)

lemma foldl_electOne_len (qv : ℚ) (cfg : Config) :
    ∀ (l : List Cand) (st : EState),
      ((l.foldl (electOne qv cfg) st).remaining).length ≤ st.remaining.length := by
  intro l
  induction l with
  | nil => intro st; exact le_refl _
  | cons c cs ih =>
      intro st
      calc ((c :: cs).foldl (electOne qv cfg) st).remaining.length
          = ((cs.foldl (electOne qv cfg) (electOne qv cfg st c)).remaining).length := by
            rw [List.foldl_cons]
        _ ≤ (electOne qv cfg st c).remaining.length := ih _
        _ = (st.remaining.erase c).length := rfl
        _ ≤ st.remaining.length := (st.remaining.erase_sublist c).length_le

lemma stepRound_dec {cfg : Config} (hTB : ValidTiebreak cfg.tiebreak) (qv : ℚ)
    {st st₁ : EState} (hstep : stepRound qv cfg st = .ok st₁) :
    st₁.remaining.length < st.remaining.length := by
  unfold stepRound at hstep
  split at hstep
  next x w ws hW =>
    have hw : w ∈ st.remaining :=
      List.mem_of_mem_filter (hW ▸ List.mem_cons_self w ws)
    have hpos : 0 < st.remaining.length := List.length_pos_of_mem hw
    split at hstep
    next hsim =>
      cases hstep
      calc ((w :: ws).foldl (electOne qv cfg) st).remaining.length
          = ((ws.foldl (electOne qv cfg) (electOne qv cfg st w)).remaining).length := by
            rw [List.foldl_cons]
        _ ≤ (electOne qv cfg st w).remaining.length := foldl_electOne_len qv cfg ws _
        _ = (st.remaining.erase w).length := rfl
        _ < st.remaining.length := by
            rw [List.length_erase_of_mem hw]
            omega
    next hsim =>
      cases hstep
      have hb : bestOf st ws w ∈ w :: ws := bestOf_mem st ws w
      have hbr : bestOf st ws w ∈ st.remaining := List.mem_of_mem_filter (hW ▸ hb)
      show (st.remaining.erase (bestOf st ws w)).length < st.remaining.length
      rw [List.length_erase_of_mem hbr]
      omega
  next x hW =>
    split at hstep
    next x1 x2 c heq =>
      cases hstep
      have hc : c ∈ st.remaining :=
        List.mem_of_mem_filter (heq ▸ List.mem_cons_self c [])
      show (st.remaining.erase c).length < st.remaining.length
      rw [List.length_erase_of_mem hc]
      have := List.length_pos_of_mem hc
      omega
    next x1 x2 c heq hno =>
      cases hstep
      have hc : c ∈ losersOf st := hTB _ _ _ heq
      have hr : c ∈ st.remaining := List.mem_of_mem_filter hc
      show (st.remaining.erase c).length < st.remaining.length
      rw [List.length_erase_of_mem hr]
      have := List.length_pos_of_mem hr
      omega
    next x1 x2 heq hno =>
      simp at hstep

/-- How many extra states (beyond one per executed round) the loop trace
holds: one when it completed, none otherwise. -/
def traceBudget : Outcome → ℕ
  | .complete _ => 1
  | _ => 0

lemma runLoop_bound {cfg : Config} (hTB : ValidTiebreak cfg.tiebreak) (qv : ℚ) (m : ℕ) :
    ∀ (fuel : ℕ) (st : EState), st.remaining.length < fuel →
      (runLoop qv m cfg fuel st).2 ≠ .outOfFuel ∧
      (runLoop qv m cfg fuel st).1.length
        ≤ st.remaining.length + traceBudget (runLoop qv m cfg fuel st).2 := by
  intro fuel
  induction fuel with
  | zero =>
      intro st h
      exact absurd h (Nat.not_lt_zero _)
  | succ n ih =>
      intro st hlt
      rw [runLoop]
      by_cases h1 : m ≤ st.elected.length
      · rw [if_pos h1]
        refine ⟨by simp, ?_⟩
        simp [traceBudget]
      · rw [if_neg h1]
        by_cases h2 : st.remaining = [] ∨ st.active = []
        · rw [if_pos h2]
          refine ⟨by simp, ?_⟩
          simp [traceBudget]
        · rw [if_neg h2]
          cases hstep : stepRound qv cfg st with
          | error e =>
              refine ⟨by simp, ?_⟩
              simp [traceBudget]
          | ok st₁ =>
              have hdec := stepRound_dec hTB qv hstep
              have hlt2 : st₁.remaining.length < n := by omega
              obtain ⟨ho, hl⟩ := ih st₁ hlt2
              constructor
              · show (runLoop qv m cfg n st₁).2 ≠ .outOfFuel
                exact ho
              · show (st₁ :: (runLoop qv m cfg n st₁).1).length
                  ≤ st.remaining.length + traceBudget (runLoop qv m cfg n st₁).2
                simp only [List.length_cons]
                omega

section TerminationClaim

/-- C7: Every election run under a tie-break rule meeting the spec's
contract (a resolved tie names one of the tied candidates) either reaches
the `complete` outcome or aborts with a fatal error — the fuel bound of
the loop is never hit — and it executes at most as many rounds as there
are declared candidates. -/
theorem stv_bounded_rounds (cfg : Config) (hTB : ValidTiebreak cfg.tiebreak) (m : ℕ)
    (cands : List Cand) (ballots : List Ballot) :
    ((∃ stF, (runSTV cfg m cands ballots).2 = .complete stF) ∨
      (∃ e, (runSTV cfg m cands ballots).2 = .err e)) ∧
    roundsRun (runSTV cfg m cands ballots) ≤ cands.length := by
  have hdd : (initState cands ballots).remaining.length ≤ cands.length := by
    have h := (List.dedup_sublist cands).length_le
    simpa [initState] using h
  have hlen : (initState cands ballots).remaining.length < cands.length + 1 := by omega
  obtain ⟨ho, hl⟩ := runLoop_bound hTB (cfg.quota (sumW ballots) m) m (cands.length + 1)
    (initState cands ballots) hlen
  have htr : (runSTV cfg m cands ballots).1.length
      = (runLoop (cfg.quota (sumW ballots) m) m cfg (cands.length + 1)
          (initState cands ballots)).1.length + 1 := rfl
  have hout : (runSTV cfg m cands ballots).2
      = (runLoop (cfg.quota (sumW ballots) m) m cfg (cands.length + 1)
          (initState cands ballots)).2 := rfl
  constructor
  · cases hcase : (runSTV cfg m cands ballots).2 with
    | complete stF => exact Or.inl ⟨stF, rfl⟩
    | err e => exact Or.inr ⟨e, rfl⟩
    | outOfFuel =>
        rw [hout] at hcase
        exact absurd hcase ho
  · unfold roundsRun
    cases hcase : (runSTV cfg m cands ballots).2 with
    | complete stF =>
        have hB : traceBudget (runLoop (cfg.quota (sumW ballots) m) m cfg
            (cands.length + 1) (initState cands ballots)).2 = 1 := by
          rw [← hout, hcase]
          rfl
        rw [hB] at hl
        show (runSTV cfg m cands ballots).1.length - 2 ≤ cands.length
        rw [htr]
        omega
    | err e =>
        have hB : traceBudget (runLoop (cfg.quota (sumW ballots) m) m cfg
            (cands.length + 1) (initState cands ballots)).2 = 0 := by
          rw [← hout, hcase]
          rfl
        rw [hB] at hl
        show (runSTV cfg m cands ballots).1.length - 1 ≤ cands.length
        rw [htr]
        omega
    | outOfFuel =>
        rw [hout] at hcase
        exact absurd hcase ho

/-- C7 witness: the bound applied to the scenario profile under the
first-in-order tie-break — the run completes in at most two rounds. -/
theorem stv_bounded_rounds_witness :
    ((∃ stF, (runSTV stvFirstConfig 1 [cA, cB] tiedProfile).2 = .complete stF) ∨
      (∃ e, (runSTV stvFirstConfig 1 [cA, cB] tiedProfile).2 = .err e)) ∧
    roundsRun (runSTV stvFirstConfig 1 [cA, cB] tiedProfile) ≤ [cA, cB].length :=
  stv_bounded_rounds stvFirstConfig firstTiebreak_valid 1 [cA, cB] tiedProfile

end TerminationClaim

end VoteKit
